import Mathlib

set_option maxRecDepth 20000

/-!
Verification development for the alibi-detect Kolmogorov-Smirnov drift
detector (`alibi_detect.cd.ks.KSDrift`).  The repository snapshot contains
only the documentation notebook `doc/source/methods/ksdrift.ipynb`; the
implementation module `alibi_detect/cd/ks.py` is absent, so every definition
below is modelled from the specification's description of the detector.
-/

namespace AlibiDetect

/-- Modelled from the spec: the alternative hypothesis of the K-S test
(`alternative` parameter; options 'two-sided' (default), 'less', 'greater').
The implementation `alibi_detect/cd/ks.py` is missing from the snapshot. -/
inductive AltHyp
  | twoSided
  | less
  | greater
  deriving DecidableEq

/-- Modelled from the spec: the `drift_type` argument of `predict`
(either 'feature' or 'batch'). -/
inductive DriftType
  | feature
  | batch
  deriving DecidableEq

/-- Modelled from the spec: the error conditions of `predict`
(DimensionMismatch, InvalidCorrection, InsufficientSamples). -/
inductive DetectorError
  | dimensionMismatch
  | invalidCorrection
  | insufficientSamples
  deriving DecidableEq

/-- Modelled from the spec: the `update_X_ref` policy, either keeping the
last N instances seen or reservoir sampling with reservoir size N. -/
inductive UpdatePolicy
  | last (n : ℕ)
  | reservoirSampling (n : ℕ)
  deriving DecidableEq

/-- Modelled from the spec: the drift verdict part of a prediction: a single
0/1 scalar in batch mode, a per-feature 0/1 vector in feature mode. -/
inductive Verdict
  | batch (isDrift : ℕ)
  | feature (flags : List ℕ)
  deriving DecidableEq

/-- Modelled from the spec: the `data` part of the prediction dictionary:
the drift verdict plus the feature-level p-values when `return_p_val`. -/
structure PredResult where
  verdict : Verdict
  pVals : Option (List ℚ)
  deriving DecidableEq

/-- The quotient `a / b` of two counts as a rational number, built with
`Rat.divInt` so that concrete instances evaluate. -/
def ratOfCounts (a b : ℕ) : ℚ :=
  Rat.divInt (a : ℤ) (b : ℤ)

/-- The rational `(k / n) * thr`, built with `Rat.divInt` so that concrete
instances evaluate. -/
def ratScale (k n : ℕ) (thr : ℚ) : ℚ :=
  Rat.divInt ((k : ℤ) * thr.num) ((n : ℤ) * (thr.den : ℤ))

/-- Number of sample elements that are `≤ v` (the unnormalised empirical CDF). -/
def cntLe {α : Type} [LinearOrder α] (l : List α) (v : α) : ℕ :=
  l.countP fun x => decide (x ≤ v)

/-- Modelled from the spec: directed distance between the two empirical CDFs,
on the common denominator `n*m`: two-sided takes the absolute value, the
one-sided alternatives keep one direction (clamped at 0). -/
def dirStat (alt : AltHyp) (d : ℤ) : ℕ :=
  match alt with
  | .twoSided => d.natAbs
  | .greater => (-d).toNat
  | .less => d.toNat

/-- Modelled from the spec: the K-S statistic of samples `xs` (size n) and
`ys` (size m), multiplied by `n*m` so that it is a natural number: the
supremum over all sample points of the (directed) ECDF distance. -/
def ksStatNum {α : Type} [LinearOrder α] (alt : AltHyp) (xs ys : List α) : ℕ :=
  ((xs ++ ys).map fun v =>
    dirStat alt ((ys.length : ℤ) * (cntLe xs v : ℤ) - (xs.length : ℤ) * (cntLe ys v : ℤ))).foldr
    max 0

/-- One row of the lattice-path dynamic program: `buildRow flags prev left`
computes, left to right, `v j = if flags j then prev j + v (j-1) else 0`,
seeded with `left` in place of `v (-1)`. -/
def buildRow : List Bool → List ℕ → ℕ → List ℕ
  | [], _, _ => []
  | a :: as, prev, left =>
    let v := if a then prev.headD 0 + left else 0
    v :: buildRow as prev.tail v

/-- Number of monotone lattice paths from `(0,0)` to `(n,m)` all of whose
visited points satisfy `inB`; computed row by row. -/
def dpCount (inB : ℕ → ℕ → Bool) (n m : ℕ) : ℕ :=
  let row0 := buildRow ((List.range (m + 1)).map (inB 0)) (List.replicate (m + 1) 0) 1
  ((List.range n).foldl
    (fun prev i => buildRow ((List.range (m + 1)).map (inB (i + 1))) prev 0) row0).getLastD 0

/-- Modelled from the spec: the exact p-value of the two-sample K-S test
(the implementation `alibi_detect/cd/ks.py`, which delegates to
`scipy.stats.ks_2samp`, is missing from the snapshot): the probability,
under the exact permutation null distribution given the two sample sizes
(all `C(n+m,n)` interleavings equally likely), that the path statistic is at
least the observed statistic. -/
def ksPVal {α : Type} [LinearOrder α] (alt : AltHyp) (xs ys : List α) : ℚ :=
  let n := xs.length
  let m := ys.length
  let s := ksStatNum alt xs ys
  let f := dpCount (fun i j => decide (dirStat alt ((m : ℤ) * (i : ℤ) - (n : ℤ) * (j : ℤ)) < s)) n m
  let tot := dpCount (fun _ _ => true) n m
  ratOfCounts (tot - f) tot

/-- Modelled from the spec: the Bonferroni aggregation declares drift when
some feature-level p-value is at most `threshold / n_features`. -/
def bonferroniDrift (thr : ℚ) (ps : List ℚ) : Bool :=
  ps.any fun p => decide (p ≤ ratScale 1 ps.length thr)

/-- The feature-level p-values sorted ascending, as used by the
Benjamini-Hochberg procedure. -/
def bhSorted (ps : List ℚ) : List ℚ :=
  List.insertionSort (· ≤ ·) ps

/-- The Benjamini-Hochberg crossing condition at (1-based) rank `k` out of
`n`: the p-value is at most `(k/n) * threshold`. -/
def fdrCross (thr : ℚ) (n k : ℕ) (p : ℚ) : Bool :=
  decide (p ≤ ratScale k n thr)

/-- Modelled from the spec: the FDR (Benjamini-Hochberg) aggregation declares
drift when some rank `k` of the ascending-sorted p-values crosses the
threshold line `(k/n) * threshold` (inclusive `≤`). -/
def fdrDrift (thr : ℚ) (ps : List ℚ) : Bool :=
  ((bhSorted ps).enum).any fun ip => fdrCross thr ps.length (ip.1 + 1) ip.2

/-- The Benjamini-Hochberg crossing condition as scanned by the
implementation: positive rank `k` whose sorted p-value is at most the
threshold line at `k`. -/
def fdrP (thr : ℚ) (ps : List ℚ) (k : ℕ) : Prop :=
  0 < k ∧ (bhSorted ps).getD (k - 1) 0 ≤ ratScale k ps.length thr

instance (thr : ℚ) (ps : List ℚ) : DecidablePred (fdrP thr ps) := fun k =>
  inferInstanceAs
    (Decidable (0 < k ∧ (bhSorted ps).getD (k - 1) 0 ≤ ratScale k ps.length thr))

/-- The largest Benjamini-Hochberg crossing rank (0 when no rank crosses). -/
def fdrK (thr : ℚ) (ps : List ℚ) : ℕ :=
  Nat.findGreatest (fdrP thr ps) ps.length

/-- The set of sorted positions (0-based) selected by the Benjamini-Hochberg
rule: position `j` is selected when some rank `k > j` crosses the line. -/
def fdrSelected (thr : ℚ) (ps : List ℚ) : List ℕ :=
  (List.range ps.length).filter fun j =>
    (List.range (ps.length + 1)).any fun k =>
      decide (j < k) && fdrCross thr ps.length k ((bhSorted ps).getD (k - 1) 0)

/-- Modelled from the spec: batch-mode aggregation of the feature-level
p-values into a single 0/1 drift verdict via the configured correction
(only reached once the correction name has been validated). -/
def batchDrift (correction : String) (thr : ℚ) (ps : List ℚ) : ℕ :=
  if correction = "fdr" then (if fdrDrift thr ps then 1 else 0)
  else (if bonferroniDrift thr ps then 1 else 0)

/-- Modelled from the spec: feature-mode per-feature 0/1 drift flags; each
feature's own p-value is compared directly to the threshold, no correction. -/
def featureFlags (thr : ℚ) (ps : List ℚ) : List ℕ :=
  ps.map fun p => if p ≤ thr then 1 else 0

/-- Modelled from the spec: the `KSDrift` detector configuration, immutable
after construction. -/
structure KSDrift (α : Type) where
  pVal : ℚ
  xRef : List (List α)
  nFeatures : ℕ
  preprocessXRef : Bool := true
  updateXRef : Option UpdatePolicy := none
  preprocessFn : Option (List α → List α) := none
  correction : String := "bonferroni"
  alternative : AltHyp := AltHyp.twoSided
  dataType : Option String := none

/-- Apply the configured preprocessing function instance-wise (identity when
none is supplied). -/
def preprocessBatch {α : Type} (cfg : KSDrift α) (X : List (List α)) : List (List α) :=
  match cfg.preprocessFn with
  | none => X
  | some f => X.map f

/-- The mutable state of a detector: the stored reference set and the number
of instances seen so far. -/
structure DetState (α : Type) where
  ref : List (List α)
  seen : ℕ
  deriving DecidableEq

/-- Modelled from the spec: the `KSDrift` constructor, with the documented
defaults (`preprocess_X_ref` defaults to True, `correction` to 'bonferroni',
`alternative` to 'two-sided'). -/
def KSDrift.init {α : Type} (pVal : ℚ) (xRef : List (List α)) (nFeatures : ℕ)
    (preprocessXRef : Bool := true) (updateXRef : Option UpdatePolicy := none)
    (preprocessFn : Option (List α → List α) := none)
    (correction : String := "bonferroni") (alternative : AltHyp := AltHyp.twoSided)
    (dataType : Option String := none) : KSDrift α :=
  ⟨pVal, xRef, nFeatures, preprocessXRef, updateXRef, preprocessFn, correction,
    alternative, dataType⟩

/-- Modelled from the spec: the initial detector state; when
`preprocess_X_ref` is set the preprocessing is applied to the reference data
once at initialization and the result cached. -/
def initState {α : Type} (cfg : KSDrift α) : DetState α :=
  ⟨if cfg.preprocessXRef then preprocessBatch cfg cfg.xRef else cfg.xRef, cfg.xRef.length⟩

/-- Column `j` of a batch of instances (row-major). -/
def col {α : Type} [Inhabited α] (X : List (List α)) (j : ℕ) : List α :=
  X.map fun row => row.getD j default

/-- Modelled from the spec: the fixed-window update policy: append the new
instances and evict the oldest beyond `N` (keep the last `N`). -/
def lastWindow {β : Type} (N : ℕ) (old new : List β) : List β :=
  (old ++ new).drop (old.length + new.length - N)

/-- Modelled from the spec: one reservoir-sampling step: the incoming
instance replaces a uniformly random existing reference instance with
probability `N / t` (`t` the count seen so far); realised by a draw
`r` uniform on `{0, ..., t-1}`: replace slot `r` when `r < N`. -/
def reservoirStep {β : Type} (N : ℕ) (res : List β) (x : β) (r : ℕ) : List β :=
  if r < N then res.set r x else res

/-- Reservoir-sampling update over a batch, consuming one random draw per
incoming instance. -/
def reservoirRun {α : Type} (N : ℕ) : DetState α → List (List α) → List ℕ → DetState α
  | st, [], _ => st
  | st, _ :: _, [] => st
  | st, x :: xs, r :: rs =>
    reservoirRun N ⟨reservoirStep N st.ref x r, st.seen + 1⟩ xs rs

/-- Modelled from the spec: the reference-set update performed at the end of
a successful `predict` call, according to the configured policy. -/
def applyUpdate {α : Type} (cfg : KSDrift α) (st : DetState α) (Xp Xraw : List (List α))
    (seed : List ℕ) : DetState α :=
  match cfg.updateXRef with
  | none => ⟨st.ref, st.seen + Xraw.length⟩
  | some (.last N) =>
    ⟨lastWindow N st.ref (if cfg.preprocessXRef then Xp else Xraw), st.seen + Xraw.length⟩
  | some (.reservoirSampling N) =>
    reservoirRun N st (if cfg.preprocessXRef then Xp else Xraw) seed

/-- The reference data as used by a `predict` call: the stored reference
set, already preprocessed when `preprocess_X_ref` is set, preprocessed on
the fly otherwise. -/
def refUsed {α : Type} (cfg : KSDrift α) (st : DetState α) : List (List α) :=
  if cfg.preprocessXRef then st.ref else preprocessBatch cfg st.ref

/-- The feature-level K-S p-values computed by `predict`: one two-sample
test per feature between the reference column and the test column. -/
def pvList {α : Type} [LinearOrder α] [Inhabited α] (cfg : KSDrift α) (st : DetState α)
    (X : List (List α)) : List ℚ :=
  (List.range cfg.nFeatures).map fun j =>
    ksPVal cfg.alternative (col (refUsed cfg st) j) (col (preprocessBatch cfg X) j)

/-- Modelled from the spec: `predict(X, drift_type, return_p_val)`:
preprocess, validate (InsufficientSamples, then DimensionMismatch, then
InvalidCorrection), run the per-feature K-S tests, aggregate according to
`drift_type`, and update the stored reference set under the configured
policy. `seed` supplies the random draws consumed by reservoir sampling. -/
def predict {α : Type} [LinearOrder α] [Inhabited α] (cfg : KSDrift α) (st : DetState α)
    (X : List (List α)) (driftType : DriftType) (returnPVal : Bool) (seed : List ℕ) :
    Except DetectorError (PredResult × DetState α) :=
  let Xp := preprocessBatch cfg X
  if (refUsed cfg st).isEmpty || Xp.isEmpty then .error .insufficientSamples
  else if !(Xp.all fun row => decide (row.length = cfg.nFeatures)) then
    .error .dimensionMismatch
  else if !(cfg.correction == "bonferroni" || cfg.correction == "fdr") then
    .error .invalidCorrection
  else
    let ps := pvList cfg st X
    let verdict :=
      match driftType with
      | .feature => Verdict.feature (featureFlags cfg.pVal ps)
      | .batch => Verdict.batch (batchDrift cfg.correction cfg.pVal ps)
    .ok (⟨verdict, if returnPVal then some ps else none⟩, applyUpdate cfg st Xp X seed)

/-- The Benjamini-Hochberg crossing condition of the spec at 1-based rank
`k`: the `k`-th smallest p-value is at most `(k/n) * threshold`. -/
def BHCross (thr : ℚ) (ps : List ℚ) (k : ℕ) : Prop :=
  0 < k ∧ k ≤ ps.length ∧ (bhSorted ps).getD (k - 1) 0 ≤ (k : ℚ) / (ps.length : ℚ) * thr

/-- Modelled from the spec: the number of random-draw sequences for the
reservoir steps `t+1, ..., t+k` (the draw at step `s` is uniform on
`{0, ..., s-1}`, realising replacement probability `N/s`). -/
def seedSpace : ℕ → ℕ → ℕ
  | _, 0 => 1
  | t, k + 1 => (t + 1) * seedSpace (t + 1) k

/-- The number of draw sequences for the reservoir steps `t+1, ..., t+k`
after which instance `i` belongs to the reservoir, starting from reservoir
`res` (instances are identified with their 1-based stream index, so step
`s` inserts instance `s`). -/
def streamCount (N i : ℕ) : List ℕ → ℕ → ℕ → ℕ
  | res, _, 0 => if i ∈ res then 1 else 0
  | res, t, k + 1 =>
    Finset.sum (Finset.range (t + 1)) fun r =>
      streamCount N i (reservoirStep N res (t + 1) r) (t + 1) k

/-- The rising product `t * (t+1) * ... * (t+k-1)`. -/
def ascProd : ℕ → ℕ → ℕ
  | _, 0 => 1
  | t, k + 1 => t * ascProd (t + 1) k

/-- The detector state after a `predict` call: the updated state on success,
the unchanged previous state on error. -/
def stepState {α : Type} [LinearOrder α] [Inhabited α] (cfg : KSDrift α) (st : DetState α)
    (X : List (List α)) (driftType : DriftType) (returnPVal : Bool) (seed : List ℕ) :
    DetState α :=
  match predict cfg st X driftType returnPVal seed with
  | .ok (_, st') => st'
  | .error _ => st

/-! ### Basic lemmas about the rational helpers -/

theorem ratOfCounts_eq (a b : ℕ) : ratOfCounts a b = (a : ℚ) / (b : ℚ) := by
  simp [ratOfCounts, Rat.divInt_eq_div]

theorem ratScale_eq (k n : ℕ) (thr : ℚ) : ratScale k n thr = (k : ℚ) / (n : ℚ) * thr := by
  have h : ((k : ℚ) / (n : ℚ)) * ((thr.num : ℚ) / (thr.den : ℚ)) =
      ((k : ℚ) * (thr.num : ℚ)) / ((n : ℚ) * (thr.den : ℚ)) := div_mul_div_comm _ _ _ _
  simp only [ratScale, Rat.divInt_eq_div]
  push_cast
  rw [← Rat.num_div_den thr, h, Rat.num_div_den thr]

theorem ratScale_one (n : ℕ) (thr : ℚ) : ratScale 1 n thr = thr / (n : ℚ) := by
  rw [ratScale_eq, Nat.cast_one, one_div, inv_mul_eq_div]

/-! ### Aggregation lemmas -/

theorem bonferroniDrift_iff (thr : ℚ) (ps : List ℚ) :
    bonferroniDrift thr ps = true ↔ ∃ p ∈ ps, p ≤ thr / (ps.length : ℚ) := by
  simp [bonferroniDrift, ratScale_one]

theorem fdrCross_iff (thr : ℚ) (n k : ℕ) (p : ℚ) :
    fdrCross thr n k p = true ↔ p ≤ (k : ℚ) / (n : ℚ) * thr := by
  simp [fdrCross, ratScale_eq]

theorem bhSorted_sorted (ps : List ℚ) : (bhSorted ps).Sorted (· ≤ ·) :=
  List.sorted_insertionSort _ ps

theorem bhSorted_perm (ps : List ℚ) : (bhSorted ps).Perm ps :=
  List.perm_insertionSort _ ps

theorem bhSorted_length (ps : List ℚ) : (bhSorted ps).length = ps.length :=
  (bhSorted_perm ps).length_eq

theorem fdrDrift_iff (thr : ℚ) (ps : List ℚ) :
    fdrDrift thr ps = true ↔ ∃ k, BHCross thr ps k := by
  unfold fdrDrift
  rw [List.any_eq_true]
  constructor
  · rintro ⟨⟨j, p⟩, hmem, hcross⟩
    rw [List.mk_mem_enum_iff_getElem?] at hmem
    have hj : j < (bhSorted ps).length := by
      by_contra hge
      rw [List.getElem?_eq_none (Nat.le_of_not_lt hge)] at hmem
      exact Option.noConfusion hmem
    refine ⟨j + 1, Nat.succ_pos j, ?_, ?_⟩
    · rw [← bhSorted_length ps]; exact hj
    · have hp : (bhSorted ps).getD (j + 1 - 1) 0 = p := by
        simp only [Nat.add_sub_cancel, List.getD_eq_getElem?_getD, hmem, Option.getD_some]
      rw [hp]
      exact (fdrCross_iff thr ps.length (j + 1) p).mp hcross
  · rintro ⟨k, hk0, hkn, hle⟩
    have hklt : k - 1 < (bhSorted ps).length := by
      rw [bhSorted_length ps]; omega
    refine ⟨(k - 1, (bhSorted ps).getD (k - 1) 0), ?_, ?_⟩
    · rw [List.mk_mem_enum_iff_getElem?]
      simp [List.getD_eq_getElem?_getD, List.getElem?_eq_getElem hklt]
    · have hk1 : k - 1 + 1 = k := Nat.succ_pred_eq_of_pos hk0
      rw [hk1]
      exact (fdrCross_iff thr ps.length k _).mpr hle

theorem fdrK_le (thr : ℚ) (ps : List ℚ) : fdrK thr ps ≤ ps.length :=
  Nat.findGreatest_le _

theorem BHCross_fdrK (thr : ℚ) (ps : List ℚ) {k : ℕ} (hk : BHCross thr ps k) :
    BHCross thr ps (fdrK thr ps) := by
  obtain ⟨hk0, hkn, hle⟩ := hk
  have hP : fdrP thr ps k := by
    unfold fdrP
    exact ⟨hk0, by rw [ratScale_eq]; exact hle⟩
  have hspec : fdrP thr ps (fdrK thr ps) := Nat.findGreatest_spec hkn hP
  obtain ⟨h1, h2⟩ := hspec
  exact ⟨h1, fdrK_le thr ps, by rw [← ratScale_eq]; exact h2⟩

theorem le_fdrK (thr : ℚ) (ps : List ℚ) {k : ℕ} (hk : BHCross thr ps k) :
    k ≤ fdrK thr ps := by
  obtain ⟨hk0, hkn, hle⟩ := hk
  have hP : fdrP thr ps k := by
    unfold fdrP
    exact ⟨hk0, by rw [ratScale_eq]; exact hle⟩
  exact Nat.le_findGreatest hkn hP

theorem fdrK_cross (thr : ℚ) (ps : List ℚ) (h : 0 < fdrK thr ps) :
    BHCross thr ps (fdrK thr ps) := by
  have h0 : Nat.findGreatest (fdrP thr ps) ps.length = fdrK thr ps := rfl
  obtain ⟨hle, hne, -⟩ := Nat.findGreatest_eq_iff.mp h0
  have hP : fdrP thr ps (fdrK thr ps) := hne (Nat.pos_iff_ne_zero.mp h)
  obtain ⟨h1, h2⟩ := hP
  exact ⟨h1, hle, by rw [← ratScale_eq]; exact h2⟩

theorem range_filter_lt (K : ℕ) :
    ∀ n : ℕ, K ≤ n →
      (List.range n).filter (fun j => decide (j < K)) = List.range K := by
  intro n
  induction n with
  | zero => intro h; interval_cases K; rfl
  | succ n ih =>
    intro h
    rcases Nat.lt_or_ge K (n + 1) with hlt | hge
    · have hKn : K ≤ n := Nat.lt_succ_iff.mp hlt
      rw [List.range_succ, List.filter_append, ih hKn]
      have : decide (n < K) = false := by simp [Nat.not_lt.mpr hKn]
      simp [this]
    · have hK : K = n + 1 := Nat.le_antisymm h hge
      subst hK
      rw [List.filter_eq_self.mpr]
      intro a ha
      simp only [List.mem_range] at ha
      simpa using ha

theorem fdrSelected_mem_iff (thr : ℚ) (ps : List ℚ) (j : ℕ) :
    ((List.range (ps.length + 1)).any fun k =>
        decide (j < k) && fdrCross thr ps.length k ((bhSorted ps).getD (k - 1) 0)) = true ↔
      j < fdrK thr ps := by
  rw [List.any_eq_true]
  constructor
  · rintro ⟨k, hkmem, hk⟩
    rw [Bool.and_eq_true, decide_eq_true_eq] at hk
    obtain ⟨hjk, hcross⟩ := hk
    simp only [List.mem_range] at hkmem
    have hbh : BHCross thr ps k :=
      ⟨Nat.lt_of_le_of_lt (Nat.zero_le j) hjk,
        Nat.lt_succ_iff.mp hkmem, (fdrCross_iff thr ps.length k _).mp hcross⟩
    exact Nat.lt_of_lt_of_le hjk (le_fdrK thr ps hbh)
  · intro hj
    have hpos : 0 < fdrK thr ps := Nat.lt_of_le_of_lt (Nat.zero_le j) hj
    have hbh := fdrK_cross thr ps hpos
    refine ⟨fdrK thr ps, ?_, ?_⟩
    · simp only [List.mem_range]
      exact Nat.lt_succ_of_le (fdrK_le thr ps)
    · rw [Bool.and_eq_true, decide_eq_true_eq]
      exact ⟨hj, (fdrCross_iff thr ps.length _ _).mpr hbh.2.2⟩

/-- C1: with `drift_type = 'batch'` and `correction = 'bonferroni'`, drift
is declared (`is_drift = 1`) if and only if the minimum p-value across the
features is at most `threshold / n_features`. -/
theorem claim_C1_bonferroni (thr : ℚ) (ps : List ℚ) :
    batchDrift "bonferroni" thr ps = 1 ↔
      ps.minimum ≤ ((thr / (ps.length : ℚ) : ℚ) : WithTop ℚ) := by
  rw [batchDrift, if_neg (by decide : ¬("bonferroni" = "fdr")), List.minimum_le_coe_iff]
  by_cases hd : bonferroniDrift thr ps = true
  · rw [if_pos hd]
    obtain ⟨p, hp, hple⟩ := (bonferroniDrift_iff thr ps).mp hd
    exact ⟨fun _ => ⟨p, hp, hple⟩, fun _ => rfl⟩
  · rw [if_neg hd]
    constructor
    · intro h; exact absurd h (by decide)
    · rintro ⟨p, hp, hple⟩
      exact absurd ((bonferroniDrift_iff thr ps).mpr ⟨p, hp, hple⟩) hd

/-- C2: with `drift_type = 'batch'` and `correction = 'fdr'`, drift is
declared if and only if, after sorting the p-values ascending, there is a
largest rank `k` with `p_k ≤ (k/n) * threshold` (the comparison is the
inclusive `≤` of the Benjamini-Hochberg definition); `bhSorted` really is
the ascending sort of the p-value vector. -/
theorem claim_C2_fdr (thr : ℚ) (ps : List ℚ) :
    (bhSorted ps).Sorted (· ≤ ·) ∧ (bhSorted ps).Perm ps ∧
      (batchDrift "fdr" thr ps = 1 ↔
        ∃ k, BHCross thr ps k ∧ ∀ j, BHCross thr ps j → j ≤ k) := by
  refine ⟨bhSorted_sorted ps, bhSorted_perm ps, ?_⟩
  rw [batchDrift, if_pos rfl]
  by_cases hd : fdrDrift thr ps = true
  · rw [if_pos hd]
    obtain ⟨k, hk⟩ := (fdrDrift_iff thr ps).mp hd
    exact ⟨fun _ => ⟨fdrK thr ps, BHCross_fdrK thr ps hk, fun j hj => le_fdrK thr ps hj⟩,
      fun _ => rfl⟩
  · rw [if_neg hd]
    constructor
    · intro h; exact absurd h (by decide)
    · rintro ⟨k, hk, -⟩
      exact absurd ((fdrDrift_iff thr ps).mpr ⟨k, hk⟩) hd

/-- C3: whenever Bonferroni declares drift, FDR also declares drift (on the
same p-values and threshold), and the Benjamini-Hochberg rule selects a
contiguous prefix of the ascending-sorted p-values: the selected sorted
positions are exactly `0, 1, ..., fdrK - 1`. -/
theorem claim_C3_bonferroni_vs_fdr (thr : ℚ) (ps : List ℚ) :
    (batchDrift "bonferroni" thr ps = 1 → batchDrift "fdr" thr ps = 1) ∧
      fdrSelected thr ps = List.range (fdrK thr ps) := by
  constructor
  · intro hb
    have hbd : bonferroniDrift thr ps = true := by
      by_contra hfalse
      rw [batchDrift, if_neg (by decide : ¬("bonferroni" = "fdr"))] at hb
      rw [Bool.not_eq_true] at hfalse
      rw [hfalse] at hb
      exact absurd hb (by simp)
    obtain ⟨p, hp, hple⟩ := (bonferroniDrift_iff thr ps).mp hbd
    have hps : ps ≠ [] := List.ne_nil_of_mem hp
    obtain ⟨q, l', hql⟩ : ∃ q l', bhSorted ps = q :: l' := by
      cases hbh : bhSorted ps with
      | nil =>
        have hperm := bhSorted_perm ps
        rw [hbh] at hperm
        exact absurd hperm.nil_eq.symm hps
      | cons q l' => exact ⟨q, l', rfl⟩
    have hpmem : p ∈ bhSorted ps := (bhSorted_perm ps).mem_iff.mpr hp
    have hqp : q ≤ p := by
      rw [hql] at hpmem
      rcases List.mem_cons.mp hpmem with h | h
      · exact h.ge
      · have hsorted := bhSorted_sorted ps
        rw [hql] at hsorted
        exact List.rel_of_sorted_cons hsorted p h
    have hcross : BHCross thr ps 1 := by
      refine ⟨Nat.one_pos, ?_, ?_⟩
      · have : 0 < ps.length := List.length_pos.mpr hps
        omega
      · have hq : (bhSorted ps).getD 0 0 = q := by rw [hql]; rfl
        simp only [Nat.sub_self, hq, Nat.cast_one]
        rw [one_div, inv_mul_eq_div]
        exact le_trans hqp hple
    rw [batchDrift, if_pos rfl, if_pos ((fdrDrift_iff thr ps).mpr ⟨1, hcross⟩)]
  · rw [fdrSelected]
    have hcongr : ∀ j ∈ List.range ps.length,
        ((List.range (ps.length + 1)).any fun k =>
          decide (j < k) && fdrCross thr ps.length k ((bhSorted ps).getD (k - 1) 0)) =
          decide (j < fdrK thr ps) := by
      intro j _
      rcases hj : decide (j < fdrK thr ps) with _ | _
      · rw [Bool.eq_false_iff]
        intro hany
        rw [fdrSelected_mem_iff thr ps j] at hany
        rw [decide_eq_false_iff_not] at hj
        exact hj hany
      · rw [decide_eq_true_eq] at hj
        exact (fdrSelected_mem_iff thr ps j).mpr hj
    rw [List.filter_congr hcongr, range_filter_lt (fdrK thr ps) ps.length (fdrK_le thr ps)]

/-! ### Fixed-window reference update -/

theorem lastWindow_length {β : Type} (N : ℕ) (old new : List β) :
    (lastWindow N old new).length = min N (old.length + new.length) := by
  simp only [lastWindow, List.length_drop, List.length_append]
  omega

theorem lastWindow_assoc {β : Type} (N : ℕ) (a b c : List β) :
    lastWindow N (lastWindow N a b) c = lastWindow N a (b ++ c) := by
  simp only [lastWindow, List.length_drop, List.length_append, List.drop_append_eq_append_drop,
    List.drop_drop, List.append_assoc]
  congr 1
  · congr 1
    omega
  · congr 1
    · congr 1
      omega
    · congr 1
      omega

theorem foldl_lastWindow {β : Type} (N : ℕ) :
    ∀ (bs : List (List β)) (a b : List β),
      bs.foldl (lastWindow N) (lastWindow N a b) = lastWindow N a (b ++ bs.flatten) := by
  intro bs
  induction bs with
  | nil => intro a b; simp
  | cons c bs ih =>
    intro a b
    rw [List.foldl_cons, lastWindow_assoc, ih, List.flatten_cons, List.append_assoc]

/-- C6: under the fixed-window policy with window `N`, after any nonempty
sequence of updates the stored reference set has length exactly
`min N (total instances seen)`, and it is exactly the trailing window of the
full instance stream (new instances appended, oldest evicted beyond `N`). -/
theorem claim_C6_fixed_window {β : Type} (N : ℕ) (ref : List β) (bs : List (List β))
    (hbs : bs ≠ []) :
    (bs.foldl (lastWindow N) ref).length
        = min N (ref.length + (bs.map List.length).sum) ∧
      bs.foldl (lastWindow N) ref
        = (ref ++ bs.flatten).drop (ref.length + (bs.map List.length).sum - N) := by
  obtain ⟨b, bs', rfl⟩ : ∃ b bs', bs = b :: bs' := by
    cases bs with
    | nil => exact absurd rfl hbs
    | cons b bs' => exact ⟨b, bs', rfl⟩
  have hfold : (b :: bs').foldl (lastWindow N) ref = lastWindow N ref (b :: bs').flatten := by
    rw [List.foldl_cons, foldl_lastWindow, List.flatten_cons]
  have hsum : ((b :: bs').map List.length).sum = (b :: bs').flatten.length :=
    (List.length_flatten _).symm
  constructor
  · rw [hfold, hsum, lastWindow_length]
  · rw [hfold, hsum, lastWindow]

/-- Witness for C6 at a concrete input. -/
theorem claim_C6_fixed_window_witness :
    (([[3, 4], [5]] : List (List ℕ)).foldl (lastWindow 2) [0, 1, 2]).length
        = min 2 (([0, 1, 2] : List ℕ).length + ([[3, 4], [5]].map List.length).sum) ∧
      ([[3, 4], [5]] : List (List ℕ)).foldl (lastWindow 2) [0, 1, 2]
        = (([0, 1, 2] : List ℕ) ++ [[3, 4], [5]].flatten).drop
            (([0, 1, 2] : List ℕ).length + ([[3, 4], [5]].map List.length).sum - 2) :=
  claim_C6_fixed_window 2 [0, 1, 2] [[3, 4], [5]] (by decide)

/-! ### The `predict` pipeline -/

theorem predict_eq_ok {α : Type} [LinearOrder α] [Inhabited α] (cfg : KSDrift α)
    (st : DetState α) (X : List (List α)) (driftType : DriftType) (returnPVal : Bool)
    (seed : List ℕ)
    (h1 : refUsed cfg st ≠ [])
    (h2 : preprocessBatch cfg X ≠ [])
    (h3 : ∀ row ∈ preprocessBatch cfg X, row.length = cfg.nFeatures)
    (h4 : cfg.correction = "bonferroni" ∨ cfg.correction = "fdr") :
    predict cfg st X driftType returnPVal seed = Except.ok
      (⟨match driftType with
        | .feature => Verdict.feature (featureFlags cfg.pVal (pvList cfg st X))
        | .batch => Verdict.batch (batchDrift cfg.correction cfg.pVal (pvList cfg st X)),
        if returnPVal then some (pvList cfg st X) else none⟩,
        applyUpdate cfg st (preprocessBatch cfg X) X seed) := by
  have e1 : ((refUsed cfg st).isEmpty || (preprocessBatch cfg X).isEmpty) = false := by
    rw [Bool.or_eq_false_iff]
    constructor
    · rw [← Bool.not_eq_true, List.isEmpty_iff]; exact h1
    · rw [← Bool.not_eq_true, List.isEmpty_iff]; exact h2
  have e2 : ((preprocessBatch cfg X).all fun row => decide (row.length = cfg.nFeatures))
      = true := by
    rw [List.all_eq_true]
    intro row hrow
    exact decide_eq_true (h3 row hrow)
  have e3 : (cfg.correction == "bonferroni" || cfg.correction == "fdr") = true := by
    rcases h4 with h | h <;> rw [h] <;> rfl
  rw [predict]
  rw [if_neg (by rw [e1]; exact Bool.false_ne_true), if_neg (by rw [e2]; simp),
    if_neg (by rw [e3]; simp)]

theorem ksPVal_unit {α : Type} [LinearOrder α] (alt : AltHyp) (xs ys : List α) :
    0 ≤ ksPVal alt xs ys ∧ ksPVal alt xs ys ≤ 1 := by
  rw [ksPVal]
  set s := ksStatNum alt xs ys
  set f := dpCount (fun i j =>
    decide (dirStat alt ((ys.length : ℤ) * (i : ℤ) - (xs.length : ℤ) * (j : ℤ)) < s))
    xs.length ys.length
  set tot := dpCount (fun _ _ => true) xs.length ys.length
  rw [ratOfCounts_eq]
  constructor
  · exact div_nonneg (Nat.cast_nonneg _) (Nat.cast_nonneg _)
  · rcases Nat.eq_zero_or_pos tot with h0 | hpos
    · simp [h0]
    · rw [div_le_one (by exact_mod_cast hpos)]
      exact_mod_cast Nat.sub_le tot f

/-- C9: every per-feature p-value returned by `predict` lies in `[0, 1]`. -/
theorem claim_C9_pvals_in_unit {α : Type} [LinearOrder α] [Inhabited α] (cfg : KSDrift α)
    (st : DetState α) (X : List (List α)) (driftType : DriftType) (seed : List ℕ)
    (r : PredResult) (st' : DetState α)
    (h : predict cfg st X driftType true seed = Except.ok (r, st'))
    (ps : List ℚ) (hps : r.pVals = some ps) :
    ∀ p ∈ ps, 0 ≤ p ∧ p ≤ 1 := by
  have hr : ps = pvList cfg st X := by
    rw [predict] at h
    by_cases c1 : ((refUsed cfg st).isEmpty || (preprocessBatch cfg X).isEmpty) = true
    · rw [if_pos c1] at h; exact absurd h (by simp)
    · rw [if_neg c1] at h
      by_cases c2 : (!((preprocessBatch cfg X).all fun row =>
          decide (row.length = cfg.nFeatures))) = true
      · rw [if_pos c2] at h; exact absurd h (by simp)
      · rw [if_neg c2] at h
        by_cases c3 : (!(cfg.correction == "bonferroni" || cfg.correction == "fdr")) = true
        · rw [if_pos c3] at h; exact absurd h (by simp)
        · rw [if_neg c3] at h
          have h' := Except.ok.inj h
          obtain ⟨hr1, -⟩ := Prod.mk.inj h'
          rw [← hr1] at hps
          have hsome : some (pvList cfg st X) = some ps := hps
          exact (Option.some.inj hsome).symm
  intro p hp
  rw [hr] at hp
  rw [pvList] at hp
  obtain ⟨j, -, hj⟩ := List.mem_map.mp hp
  rw [← hj]
  exact ksPVal_unit cfg.alternative _ _

/-- Witness for C9 at a concrete input. -/
theorem claim_C9_pvals_in_unit_witness :
    (0 : ℚ) ≤ mkRat 2 3 ∧ (mkRat 2 3 : ℚ) ≤ 1 :=
  claim_C9_pvals_in_unit
    (KSDrift.init (mkRat 1 20) ([[0], [1]] : List (List ℕ)) 1)
    (initState (KSDrift.init (mkRat 1 20) ([[0], [1]] : List (List ℕ)) 1))
    [[5]] DriftType.feature []
    ⟨Verdict.feature [0], some [mkRat 2 3]⟩ ⟨[[0], [1]], 3⟩
    (by rfl) [mkRat 2 3] rfl (mkRat 2 3) (by decide)

/-- C5: in feature-level mode (`drift_type = 'feature'`), `predict` applies
no Bonferroni or FDR correction: the result carries the `n_features`-long
p-value vector, the per-feature drift flags compare each feature's own
p-value directly to the significance threshold, and no scalar batch verdict
is produced. -/
theorem claim_C5_feature_mode {α : Type} [LinearOrder α] [Inhabited α] (cfg : KSDrift α)
    (st : DetState α) (X : List (List α)) (seed : List ℕ)
    (h1 : refUsed cfg st ≠ [])
    (h2 : preprocessBatch cfg X ≠ [])
    (h3 : ∀ row ∈ preprocessBatch cfg X, row.length = cfg.nFeatures)
    (h4 : cfg.correction = "bonferroni" ∨ cfg.correction = "fdr") :
    ∃ ps : List ℚ,
      predict cfg st X DriftType.feature true seed = Except.ok
        (⟨Verdict.feature (featureFlags cfg.pVal ps), some ps⟩,
          applyUpdate cfg st (preprocessBatch cfg X) X seed) ∧
      ps.length = cfg.nFeatures ∧
      featureFlags cfg.pVal ps = ps.map (fun p => if p ≤ cfg.pVal then 1 else 0) ∧
      ∀ b, Verdict.feature (featureFlags cfg.pVal ps) ≠ Verdict.batch b := by
  refine ⟨pvList cfg st X, ?_, ?_, rfl, ?_⟩
  · exact predict_eq_ok cfg st X DriftType.feature true seed h1 h2 h3 h4
  · rw [pvList, List.length_map, List.length_range]
  · intro b hb
    exact Verdict.noConfusion hb

/-- Witness for C5 at a concrete input with three features. -/
theorem claim_C5_feature_mode_witness :
    ∃ ps : List ℚ,
      predict (KSDrift.init (mkRat 1 20) ([[0, 0, 0], [1, 1, 1]] : List (List ℕ)) 3)
        (initState (KSDrift.init (mkRat 1 20) ([[0, 0, 0], [1, 1, 1]] : List (List ℕ)) 3))
        [[5, 5, 5]] DriftType.feature true [] = Except.ok
        (⟨Verdict.feature (featureFlags
            (KSDrift.init (mkRat 1 20) ([[0, 0, 0], [1, 1, 1]] : List (List ℕ)) 3).pVal ps),
          some ps⟩,
          applyUpdate (KSDrift.init (mkRat 1 20) ([[0, 0, 0], [1, 1, 1]] : List (List ℕ)) 3)
            (initState (KSDrift.init (mkRat 1 20) ([[0, 0, 0], [1, 1, 1]] : List (List ℕ)) 3))
            [[5, 5, 5]] [[5, 5, 5]] []) ∧
      ps.length = 3 ∧
      featureFlags (mkRat 1 20) ps = ps.map (fun p => if p ≤ mkRat 1 20 then 1 else 0) ∧
      ∀ b, Verdict.feature (featureFlags (mkRat 1 20) ps) ≠ Verdict.batch b :=
  claim_C5_feature_mode
    (KSDrift.init (mkRat 1 20) ([[0, 0, 0], [1, 1, 1]] : List (List ℕ)) 3)
    (initState (KSDrift.init (mkRat 1 20) ([[0, 0, 0], [1, 1, 1]] : List (List ℕ)) 3))
    [[5, 5, 5]] []
    (by decide) (by decide) (by decide) (Or.inl rfl)

/-- C10: `preprocess_X_ref` defaults to True, in which case the reference
data is preprocessed once at initialization and the result cached in the
detector state, and `alternative` defaults to 'two-sided'. -/
theorem claim_C10_defaults {α : Type} (pVal : ℚ) (xRef : List (List α)) (n : ℕ) :
    (KSDrift.init pVal xRef n).preprocessXRef = true ∧
      (KSDrift.init pVal xRef n).alternative = AltHyp.twoSided ∧
      (initState (KSDrift.init pVal xRef n)).ref
        = preprocessBatch (KSDrift.init pVal xRef n) xRef :=
  ⟨rfl, rfl, rfl⟩

/-- Witness for C3 at a concrete input. -/
theorem claim_C3_bonferroni_vs_fdr_witness :
    batchDrift "fdr" (mkRat 1 10) [mkRat 1 100, mkRat 1 2] = 1 ∧
      fdrSelected (mkRat 1 10) [mkRat 1 100, mkRat 1 2]
        = List.range (fdrK (mkRat 1 10) [mkRat 1 100, mkRat 1 2]) :=
  ⟨(claim_C3_bonferroni_vs_fdr (mkRat 1 10) [mkRat 1 100, mkRat 1 2]).1 (by decide),
    (claim_C3_bonferroni_vs_fdr (mkRat 1 10) [mkRat 1 100, mkRat 1 2]).2⟩

/-- Counterexample to C8 as stated: with an unrecognized correction name
and an empty test batch, `predict` fails with InsufficientSamples and not
with InvalidCorrection, although the correction name is neither
'bonferroni' nor 'fdr' (the three "exactly when" clauses cannot all hold
when several error conditions are violated at once). -/
theorem claim_C8_counterexample :
    predict (KSDrift.init (mkRat 1 20) ([[0]] : List (List ℕ)) 1 true none none "foo")
        (initState (KSDrift.init (mkRat 1 20) ([[0]] : List (List ℕ)) 1 true none none "foo"))
        [] DriftType.batch true []
      = Except.error DetectorError.insufficientSamples ∧
    ("foo" : String) ≠ "bonferroni" ∧ ("foo" : String) ≠ "fdr" :=
  ⟨by rfl, by decide, by decide⟩

/-- C8 (amended): `predict` validates in the order InsufficientSamples
(empty reference or test sample), DimensionMismatch (a post-preprocessing
test row whose width differs from `n_features`), InvalidCorrection
(correction name neither 'bonferroni' nor 'fdr'); each error is returned
exactly when its condition holds and no earlier condition does, and on any
error no result is produced and the stored reference state is unchanged. -/
theorem claim_C8_error_conditions {α : Type} [LinearOrder α] [Inhabited α] (cfg : KSDrift α)
    (st : DetState α) (X : List (List α)) (driftType : DriftType) (returnPVal : Bool)
    (seed : List ℕ) :
    (predict cfg st X driftType returnPVal seed
        = Except.error DetectorError.insufficientSamples ↔
      refUsed cfg st = [] ∨ preprocessBatch cfg X = []) ∧
    (predict cfg st X driftType returnPVal seed
        = Except.error DetectorError.dimensionMismatch ↔
      ¬(refUsed cfg st = [] ∨ preprocessBatch cfg X = []) ∧
        ¬∀ row ∈ preprocessBatch cfg X, row.length = cfg.nFeatures) ∧
    (predict cfg st X driftType returnPVal seed
        = Except.error DetectorError.invalidCorrection ↔
      ¬(refUsed cfg st = [] ∨ preprocessBatch cfg X = []) ∧
        (∀ row ∈ preprocessBatch cfg X, row.length = cfg.nFeatures) ∧
        ¬(cfg.correction = "bonferroni" ∨ cfg.correction = "fdr")) ∧
    (∀ e, predict cfg st X driftType returnPVal seed = Except.error e →
      stepState cfg st X driftType returnPVal seed = st ∧
      ∀ out, predict cfg st X driftType returnPVal seed ≠ Except.ok out) := by
  have hiff1 : ((refUsed cfg st).isEmpty || (preprocessBatch cfg X).isEmpty) = true ↔
      (refUsed cfg st = [] ∨ preprocessBatch cfg X = []) := by
    simp only [Bool.or_eq_true, List.isEmpty_iff]
  have hiff2 : ((preprocessBatch cfg X).all fun row => decide (row.length = cfg.nFeatures))
      = true ↔ (∀ row ∈ preprocessBatch cfg X, row.length = cfg.nFeatures) := by
    simp only [List.all_eq_true, decide_eq_true_eq]
  have hiff3 : (cfg.correction == "bonferroni" || cfg.correction == "fdr") = true ↔
      (cfg.correction = "bonferroni" ∨ cfg.correction = "fdr") := by
    simp only [Bool.or_eq_true, beq_iff_eq]
  have hstep : ∀ e, predict cfg st X driftType returnPVal seed = Except.error e →
      stepState cfg st X driftType returnPVal seed = st ∧
      ∀ out, predict cfg st X driftType returnPVal seed ≠ Except.ok out := by
    intro e he
    constructor
    · rw [stepState, he]
    · intro out hout
      rw [he] at hout
      exact Except.noConfusion hout
  by_cases c1 : ((refUsed cfg st).isEmpty || (preprocessBatch cfg X).isEmpty) = true
  · have hp : predict cfg st X driftType returnPVal seed
        = Except.error DetectorError.insufficientSamples := by
      rw [predict, if_pos c1]
    refine ⟨⟨fun _ => hiff1.mp c1, fun _ => hp⟩, ?_, ?_, hstep⟩
    · constructor
      · intro h
        rw [hp] at h
        exact absurd (Except.error.inj h) (by decide)
      · rintro ⟨hno, -⟩
        exact absurd (hiff1.mp c1) hno
    · constructor
      · intro h
        rw [hp] at h
        exact absurd (Except.error.inj h) (by decide)
      · rintro ⟨hno, -, -⟩
        exact absurd (hiff1.mp c1) hno
  · have hno1 : ¬(refUsed cfg st = [] ∨ preprocessBatch cfg X = []) := fun h =>
      c1 (hiff1.mpr h)
    by_cases c2 : ((preprocessBatch cfg X).all fun row =>
        decide (row.length = cfg.nFeatures)) = true
    · have hno2 : ∀ row ∈ preprocessBatch cfg X, row.length = cfg.nFeatures := hiff2.mp c2
      by_cases c3 : (cfg.correction == "bonferroni" || cfg.correction == "fdr") = true
      · have hok : ∃ out, predict cfg st X driftType returnPVal seed = Except.ok out := by
          rw [predict, if_neg c1, if_neg (by rw [c2]; simp), if_neg (by rw [c3]; simp)]
          exact ⟨_, rfl⟩
        obtain ⟨out, hok⟩ := hok
        refine ⟨?_, ?_, ?_, hstep⟩
        · constructor
          · intro h; rw [hok] at h; exact Except.noConfusion h
          · intro h; exact absurd h hno1
        · constructor
          · intro h; rw [hok] at h; exact Except.noConfusion h
          · rintro ⟨-, hnall⟩; exact absurd hno2 hnall
        · constructor
          · intro h; rw [hok] at h; exact Except.noConfusion h
          · rintro ⟨-, -, hnc⟩; exact absurd (hiff3.mp c3) hnc
      · have hp : predict cfg st X driftType returnPVal seed
            = Except.error DetectorError.invalidCorrection := by
          rw [predict, if_neg c1, if_neg (by rw [c2]; simp), if_pos (by
            rw [Bool.not_eq_true] at c3
            rw [c3]; rfl)]
        refine ⟨?_, ?_, ?_, hstep⟩
        · constructor
          · intro h; rw [hp] at h; exact absurd (Except.error.inj h) (by decide)
          · intro h; exact absurd h hno1
        · constructor
          · intro h; rw [hp] at h; exact absurd (Except.error.inj h) (by decide)
          · rintro ⟨-, hnall⟩; exact absurd hno2 hnall
        · exact ⟨fun _ => ⟨hno1, hno2, fun h => c3 (hiff3.mpr h)⟩, fun _ => hp⟩
    · have hp : predict cfg st X driftType returnPVal seed
          = Except.error DetectorError.dimensionMismatch := by
        rw [predict, if_neg c1, if_pos (by
          rw [Bool.not_eq_true] at c2
          rw [c2]; rfl)]
      refine ⟨?_, ?_, ?_, hstep⟩
      · constructor
        · intro h; rw [hp] at h; exact absurd (Except.error.inj h) (by decide)
        · intro h; exact absurd h hno1
      · exact ⟨fun _ => ⟨hno1, fun h => c2 (hiff2.mpr h)⟩, fun _ => hp⟩
      · constructor
        · intro h; rw [hp] at h; exact absurd (Except.error.inj h) (by decide)
        · rintro ⟨-, hall, -⟩; exact absurd (hiff2.mpr hall) c2

/-- Witness for C8 at a concrete erroring input. -/
theorem claim_C8_error_conditions_witness :
    predict (KSDrift.init (mkRat 1 20) ([[0]] : List (List ℕ)) 1)
        (initState (KSDrift.init (mkRat 1 20) ([[0]] : List (List ℕ)) 1))
        [] DriftType.batch true []
      = Except.error DetectorError.insufficientSamples ∧
    stepState (KSDrift.init (mkRat 1 20) ([[0]] : List (List ℕ)) 1)
        (initState (KSDrift.init (mkRat 1 20) ([[0]] : List (List ℕ)) 1))
        [] DriftType.batch true []
      = initState (KSDrift.init (mkRat 1 20) ([[0]] : List (List ℕ)) 1) := by
  have h := claim_C8_error_conditions
    (KSDrift.init (mkRat 1 20) ([[0]] : List (List ℕ)) 1)
    (initState (KSDrift.init (mkRat 1 20) ([[0]] : List (List ℕ)) 1))
    [] DriftType.batch true []
  have hp := h.1.mpr (Or.inr (by rfl))
  exact ⟨hp, (h.2.2.2 DetectorError.insufficientSamples hp).1⟩

/-- C4: for reference data `[0, 1, ..., 99]`, test data `[50, 51, ..., 149]`,
a single feature, significance threshold `1/20`, the default two-sided
alternative and batch mode (with one feature the correction has no effect),
`predict` returns `is_drift = 1`. -/
theorem claim_C4_shifted_uniform_example :
    (predict (KSDrift.init (mkRat 1 20) ((List.range 100).map fun i => [i]) 1)
        (initState (KSDrift.init (mkRat 1 20) ((List.range 100).map fun i => [i]) 1))
        ((List.range 100).map fun i => [50 + i]) DriftType.batch true []).toOption.map
      (fun out => out.1.verdict) = some (Verdict.batch 1) := by
  decide

/-! ### Reservoir sampling -/

theorem seedSpace_eq_ascProd (k : ℕ) : ∀ t, seedSpace t k = ascProd (t + 1) k := by
  induction k with
  | zero => intro t; rfl
  | succ k ih =>
    intro t
    show (t + 1) * seedSpace (t + 1) k = (t + 1) * ascProd (t + 2) k
    rw [ih (t + 1)]

theorem seedSpace_pos (k : ℕ) : ∀ t, 0 < seedSpace t k := by
  induction k with
  | zero => intro t; exact Nat.one_pos
  | succ k ih => intro t; exact Nat.mul_pos (Nat.succ_pos t) (ih (t + 1))

theorem ascProd_succ_right (k : ℕ) : ∀ t, ascProd t (k + 1) = ascProd t k * (t + k) := by
  induction k with
  | zero =>
    intro t
    show t * 1 = 1 * (t + 0)
    omega
  | succ k ih =>
    intro t
    show t * ascProd (t + 1) (k + 1) = t * ascProd (t + 1) k * (t + (k + 1))
    rw [ih (t + 1)]
    have h : t + 1 + k = t + (k + 1) := by omega
    rw [h, Nat.mul_assoc]

theorem ascProd_append (p : ℕ) : ∀ t q, ascProd t p * ascProd (t + p) q = ascProd t (p + q) := by
  induction p with
  | zero => intro t q; simp [ascProd]
  | succ p ih =>
    intro t q
    have h1 : t + (p + 1) = (t + 1) + p := by omega
    have h2 : p + 1 + q = (p + q) + 1 := by omega
    rw [h2]
    show t * ascProd (t + 1) p * ascProd (t + (p + 1)) q = t * ascProd (t + 1) (p + q)
    rw [h1, Nat.mul_assoc, ih (t + 1) q]

theorem mem_of_mem_reservoirStep {N : ℕ} {res : List ℕ} {x r i : ℕ}
    (h : i ∈ reservoirStep N res x r) : i ∈ res ∨ i = x := by
  rw [reservoirStep] at h
  split at h
  · exact List.mem_or_eq_of_mem_set h
  · exact Or.inl h

theorem streamCount_vanish (N i : ℕ) : ∀ (k : ℕ) (res : List ℕ) (t : ℕ),
    i ∉ res → i ≤ t → streamCount N i res t k = 0 := by
  intro k
  induction k with
  | zero => intro res t hmem _; rw [streamCount, if_neg hmem]
  | succ k ih =>
    intro res t hmem hle
    rw [streamCount]
    refine Finset.sum_eq_zero ?_
    intro r _
    refine ih _ (t + 1) ?_ (Nat.le_succ_of_le hle)
    intro hc
    rcases mem_of_mem_reservoirStep hc with h | h
    · exact hmem h
    · omega

theorem streamCount_mem (N i : ℕ) : ∀ (k : ℕ) (res : List ℕ) (t : ℕ),
    res.length = N → res.Nodup → (∀ x ∈ res, x ≤ t) → i ∈ res → N ≤ t →
    streamCount N i res t k = ascProd t k := by
  intro k
  induction k with
  | zero => intro res t _ _ _ hmem _; rw [streamCount, if_pos hmem]; rfl
  | succ k ih =>
    intro res t hlen hnd hub hmem hNt
    obtain ⟨s, hslt, hsval⟩ := List.mem_iff_getElem.mp hmem
    have hslN : s < N := hlen ▸ hslt
    have hit : i ≤ t := hub i hmem
    have hfresh : (t + 1) ∉ res := fun hc => absurd (hub _ hc) (by omega)
    rw [streamCount]
    have hterm : ∀ r ∈ Finset.range (t + 1),
        streamCount N i (reservoirStep N res (t + 1) r) (t + 1) k
          = if r = s then 0 else ascProd (t + 1) k := by
      intro r hr
      rcases eq_or_ne r s with heqr | hne
      · rw [if_pos heqr, reservoirStep, if_pos (by rw [heqr]; exact hslN)]
        refine streamCount_vanish N i k _ (t + 1) ?_ (by omega)
        intro hc
        obtain ⟨j, hjlt, hjval⟩ := List.mem_iff_getElem.mp hc
        have hjlen : j < res.length := by
          rw [List.length_set] at hjlt
          exact hjlt
        rcases eq_or_ne r j with heq2 | hjne
        · rw [List.getElem_set, if_pos heq2] at hjval
          omega
        · rw [List.getElem_set_ne hjne] at hjval
          have hjs : j = s := (List.Nodup.getElem_inj_iff hnd).mp (hjval.trans hsval.symm)
          exact hjne (heqr.trans hjs.symm)
      · rw [if_neg hne]
        rcases Nat.lt_or_ge r N with hrN | hrN
        · rw [reservoirStep, if_pos hrN]
          refine ih _ (t + 1) ?_ ?_ ?_ ?_ (by omega)
          · rw [List.length_set]; exact hlen
          · exact hnd.set hfresh
          · intro x hx
            rcases List.mem_or_eq_of_mem_set hx with h | h
            · exact Nat.le_succ_of_le (hub x h)
            · omega
          · refine List.mem_iff_getElem.mpr ⟨s, ?_, ?_⟩
            · rw [List.length_set]; exact hslt
            · rw [List.getElem_set_ne hne]
              exact hsval
        · rw [reservoirStep, if_neg (by omega)]
          exact ih res (t + 1) hlen hnd (fun x hx => Nat.le_succ_of_le (hub x hx)) hmem
            (by omega)
    rw [Finset.sum_congr rfl hterm]
    have hsmem : s ∈ Finset.range (t + 1) := Finset.mem_range.mpr (by omega)
    rw [← Finset.sum_erase_add _ _ hsmem, if_pos rfl, add_zero]
    have hrest : ∀ r ∈ (Finset.range (t + 1)).erase s,
        (if r = s then 0 else ascProd (t + 1) k) = ascProd (t + 1) k := by
      intro r hr
      rw [if_neg (Finset.ne_of_mem_erase hr)]
    rw [Finset.sum_congr rfl hrest, Finset.sum_const, smul_eq_mul,
      Finset.card_erase_of_mem hsmem, Finset.card_range]
    show (t + 1 - 1) * ascProd (t + 1) k = ascProd t (k + 1)
    have ht : t + 1 - 1 = t := rfl
    rw [ht]
    rfl

theorem streamCount_future (N i : ℕ) : ∀ (k : ℕ) (res : List ℕ) (t : ℕ),
    res.length = N → res.Nodup → (∀ x ∈ res, x ≤ t) → N ≤ t → t < i → i ≤ t + k →
    streamCount N i res t k
      = ascProd (t + 1) (i - 1 - t) * (N * ascProd i (t + k - i)) := by
  intro k
  induction k with
  | zero => intro res t _ _ _ _ hti hit; exact absurd hit (by omega)
  | succ k ih =>
    intro res t hlen hnd hub hNt hti hit
    have hfresh : (t + 1) ∉ res := fun hc => absurd (hub _ hc) (by omega)
    have hnm : i ∉ res := fun hc => absurd (hub _ hc) (by omega)
    rw [streamCount]
    rcases eq_or_lt_of_le (Nat.succ_le_of_lt hti) with hi1 | hi2
    · -- `i = t + 1`: this is the step at which instance `i` arrives.
      have hterm : ∀ r ∈ Finset.range (t + 1),
          streamCount N i (reservoirStep N res (t + 1) r) (t + 1) k
            = if r < N then ascProd (t + 1) k else 0 := by
        intro r hr
        by_cases hrN : r < N
        · rw [if_pos hrN, reservoirStep, if_pos hrN]
          refine streamCount_mem N i k _ (t + 1) ?_ ?_ ?_ ?_ (by omega)
          · rw [List.length_set]; exact hlen
          · exact hnd.set hfresh
          · intro x hx
            rcases List.mem_or_eq_of_mem_set hx with h | h
            · exact Nat.le_succ_of_le (hub x h)
            · omega
          · refine List.mem_iff_getElem.mpr ⟨r, ?_, ?_⟩
            · rw [List.length_set, hlen]; exact hrN
            · rw [List.getElem_set_self (by rw [List.length_set, hlen]; exact hrN)]
              omega
        · rw [if_neg hrN, reservoirStep, if_neg hrN]
          exact streamCount_vanish N i k res (t + 1) hnm (by omega)
      rw [Finset.sum_congr rfl hterm]
      rw [Finset.range_eq_Ico,
        ← Finset.sum_Ico_consecutive _ (Nat.zero_le N) (by omega : N ≤ t + 1)]
      have hA : ∀ r ∈ Finset.Ico 0 N,
          (if r < N then ascProd (t + 1) k else 0) = ascProd (t + 1) k := by
        intro r hr
        exact if_pos (Finset.mem_Ico.mp hr).2
      have hB : ∀ r ∈ Finset.Ico N (t + 1),
          (if r < N then ascProd (t + 1) k else 0) = 0 := by
        intro r hr
        exact if_neg (by have := (Finset.mem_Ico.mp hr).1; omega)
      rw [Finset.sum_congr rfl hA, Finset.sum_congr rfl hB, Finset.sum_const,
        Finset.sum_const_zero, add_zero, smul_eq_mul, Nat.card_Ico, Nat.sub_zero]
      have h1 : i - 1 - t = 0 := by omega
      have h2 : t + (k + 1) - i = k := by omega
      rw [h1, h2, ← hi1]
      show N * ascProd (t + 1) k = 1 * (N * ascProd (t + 1) k)
      rw [Nat.one_mul]
    · -- `t + 1 < i`: instance `i` has not arrived yet.
      have hterm : ∀ r ∈ Finset.range (t + 1),
          streamCount N i (reservoirStep N res (t + 1) r) (t + 1) k
            = ascProd (t + 2) (i - 1 - (t + 1)) * (N * ascProd i ((t + 1) + k - i)) := by
        intro r hr
        by_cases hrN : r < N
        · rw [reservoirStep, if_pos hrN]
          refine ih _ (t + 1) ?_ ?_ ?_ (by omega) hi2 (by omega)
          · rw [List.length_set]; exact hlen
          · exact hnd.set hfresh
          · intro x hx
            rcases List.mem_or_eq_of_mem_set hx with h | h
            · exact Nat.le_succ_of_le (hub x h)
            · omega
        · rw [reservoirStep, if_neg hrN]
          exact ih res (t + 1) hlen hnd (fun x hx => Nat.le_succ_of_le (hub x hx))
            (by omega) hi2 (by omega)
      rw [Finset.sum_congr rfl hterm, Finset.sum_const, smul_eq_mul, Finset.card_range]
      have hd : i - 1 - t = (i - 1 - (t + 1)) + 1 := by omega
      have hk : (t + 1) + k - i = t + (k + 1) - i := by omega
      rw [hk, hd]
      show (t + 1) * (ascProd (t + 2) (i - 1 - (t + 1)) * (N * ascProd i (t + (k + 1) - i)))
        = ascProd (t + 1) ((i - 1 - (t + 1)) + 1) * (N * ascProd i (t + (k + 1) - i))
      rw [show ascProd (t + 1) ((i - 1 - (t + 1)) + 1)
          = (t + 1) * ascProd (t + 2) (i - 1 - (t + 1)) from rfl, Nat.mul_assoc]

theorem reservoir_count_eq (N M i : ℕ) (hN : 1 ≤ N) (hNM : N ≤ M) (hi1 : 1 ≤ i)
    (hiM : i ≤ M) :
    streamCount N i (List.range' 1 N) N (M - N) * M = N * seedSpace N (M - N) := by
  have hlen : (List.range' 1 N).length = N := by simp
  have hnd : (List.range' 1 N).Nodup := List.nodup_range' 1 N
  have hub : ∀ x ∈ List.range' 1 N, x ≤ N := by
    intro x hx
    have := List.mem_range'_1.mp hx
    omega
  rw [seedSpace_eq_ascProd]
  rcases le_or_lt i N with hiN | hiN
  · have hmem : i ∈ List.range' 1 N := List.mem_range'_1.mpr ⟨hi1, by omega⟩
    rw [streamCount_mem N i (M - N) _ N hlen hnd hub hmem Nat.le.refl]
    calc ascProd N (M - N) * M = ascProd N (M - N) * (N + (M - N)) := by
          rw [show N + (M - N) = M from by omega]
      _ = ascProd N ((M - N) + 1) := (ascProd_succ_right (M - N) N).symm
      _ = ascProd N (1 + (M - N)) := by rw [Nat.add_comm]
      _ = ascProd N 1 * ascProd (N + 1) (M - N) := (ascProd_append 1 N (M - N)).symm
      _ = N * ascProd (N + 1) (M - N) := by
          rw [show ascProd N 1 = N * 1 from rfl, Nat.mul_one]
  · rw [streamCount_future N i (M - N) _ N hlen hnd hub Nat.le.refl hiN (by omega)]
    have h2 : N + (M - N) - i = M - i := by omega
    rw [h2]
    calc ascProd (N + 1) (i - 1 - N) * (N * ascProd i (M - i)) * M
        = N * (ascProd (N + 1) (i - 1 - N) * (ascProd i (M - i) * M)) := by ring
      _ = N * (ascProd (N + 1) (i - 1 - N) * (ascProd i (M - i) * (i + (M - i)))) := by
          rw [show i + (M - i) = M from by omega]
      _ = N * (ascProd (N + 1) (i - 1 - N) * ascProd i ((M - i) + 1)) := by
          rw [ascProd_succ_right]
      _ = N * (ascProd (N + 1) (i - 1 - N)
            * ascProd ((N + 1) + (i - 1 - N)) ((M - i) + 1)) := by
          rw [show (N + 1) + (i - 1 - N) = i from by omega]
      _ = N * ascProd (N + 1) ((i - 1 - N) + ((M - i) + 1)) := by
          rw [ascProd_append]
      _ = N * ascProd (N + 1) (M - N) := by
          rw [show (i - 1 - N) + ((M - i) + 1) = M - N from by omega]

/-- C7: under the reservoir-sampling policy with reservoir size `N` over a
stream of `M ≥ N` instances (each incoming instance replacing a uniformly
random reservoir slot with probability `N / t`, `t` the count seen so far),
every instance `1 ≤ i ≤ M` ends up in the final reservoir with probability
exactly `N / M`: the number of draw sequences keeping `i`, divided by the
total number of draw sequences, is `N / M`. -/
theorem claim_C7_reservoir_sampling (N M i : ℕ) (hN : 1 ≤ N) (hNM : N ≤ M)
    (hi1 : 1 ≤ i) (hiM : i ≤ M) :
    (streamCount N i (List.range' 1 N) N (M - N) : ℚ) / (seedSpace N (M - N) : ℚ)
      = (N : ℚ) / (M : ℚ) := by
  have hseed : 0 < seedSpace N (M - N) := seedSpace_pos (M - N) N
  have hM : 0 < M := by omega
  rw [div_eq_div_iff (by exact_mod_cast hseed.ne') (by exact_mod_cast hM.ne')]
  exact_mod_cast reservoir_count_eq N M i hN hNM hi1 hiM

/-- Witness for C7 at a concrete input: reservoir size 2, stream of 4,
instance 3. -/
theorem claim_C7_reservoir_sampling_witness :
    (streamCount 2 3 (List.range' 1 2) 2 2 : ℚ) / (seedSpace 2 2 : ℚ)
      = (2 : ℚ) / (4 : ℚ) :=
  claim_C7_reservoir_sampling 2 4 3 (by decide) (by decide) (by decide) (by decide)

end AlibiDetect
